import Mathlib

/-!
Shallow embedding of `src/source_dump/sourcedump.ts` (the ignore-aware
traversal and filtering engine) and proofs about it.

Modelling conventions:
* JS strings are Lean `String`s; `s.startsWith(p)` is prefix-of on the
  underlying character lists (`strStartsWith`).
* The host regular-expression facility (`new RegExp(p)` / `regex.test(s)`) is
  an abstract interface `Regexp`: `compiles p` says whether `new RegExp(p)`
  succeeds (the `try`/`catch` in the source), and `test p s` is the result of
  `new RegExp(p).test(s)` when it does.  All theorems are parametric in it.
* The filesystem seen by a traversal is a finite tree `Entry`/`EntryList`
  (directory-read order = the order of the children list).  During the
  traversal of the source, `dir` is always a descendant chain of `baseDir`,
  so `path.relative(baseDir, path.join(dir, file))` is the accumulated
  relative path extended with `"/" ++ file` (empty accumulator at the root);
  `childRel` models exactly that.
* Failure of filesystem operations (reads and stats) is modelled separately
  with `DirR`/`NodeR` trees whose reads and stats can fail, and traversals in
  the `Except` monad.
-/

/-- Model of JS `s.startsWith(p)` (written `strStartsWith s p`): `p` is a literal prefix
of `s`, decided on the underlying character lists. -/
def strStartsWith (s p : String) : Bool :=
  p.data.isPrefixOf s.data

/-- Abstract interface for the host regular-expression facility.
`compiles p` = does `new RegExp(p)` succeed; `test p s` = result of
`new RegExp(p).test(s)` when it does (i.e. does the regex match anywhere
within `s`). -/
structure Regexp where
  compiles : String → Bool
  test : String → String → Bool

/-- A concrete `Regexp` instance on which every pattern fails to compile;
used to evaluate the generic theorems on concrete inputs. -/
def noRegex : Regexp where
  compiles := fun _ => false
  test := fun _ _ => false

/-- A concrete `Regexp` instance on which every pattern compiles, and matches
`s` iff the pattern occurs as a contiguous substring of `s` (the behaviour of
JS `RegExp.test` for patterns without metacharacters). -/
def substrRegex : Regexp where
  compiles := fun _ => true
  test := fun p s => s.data.tails.any fun t => p.data.isPrefixOf t

/-- Translation of `shouldIgnore` (sourcedump.ts lines 28-41):
`ignorePatterns.some(pattern => { if (filePath === pattern ||
filePath.startsWith(pattern)) return true; try { return new
RegExp(pattern).test(filePath) } catch (e) { return false } })`. -/
def shouldIgnore (R : Regexp) (filePath : String) (ignorePatterns : List String) : Bool :=
  ignorePatterns.any fun pattern =>
    if filePath = pattern ∨ strStartsWith filePath pattern then
      true
    else if R.compiles pattern then
      R.test pattern filePath
    else
      false

mutual
/-- A filesystem entry as seen by the traversal: its base name, and—per the
`stat` call of the source—whether it is a directory (with its children in
directory-read order) or a file. -/
inductive Entry where
  | file (name : String)
  | dir (name : String) (children : EntryList)
/-- The listing of a directory, in directory-read order. -/
inductive EntryList where
  | nil
  | cons (e : Entry) (rest : EntryList)
end

/-- Base name of an entry (the `file` loop variable of the source). -/
def Entry.name : Entry → String
  | .file n => n
  | .dir n _ => n

/-- The relative path of a child entry: models
`path.relative(baseDir, path.join(dir, file))` where `rel` is the path of
`dir` relative to `baseDir` (`""` when `dir` is the traversal root). -/
def childRel (rel name : String) : String :=
  if rel = "" then name else rel ++ "/" ++ name

/-- Translation of `listFiles` (sourcedump.ts lines 43-63) on the tree model.
The loop body checks `file.startsWith('.')` (skip), then `shouldIgnore` on
the relative path (skip), then stats the entry: a directory contributes its
recursive listing, a file its relative path.  The constructor split replaces
the `fileStat.isDirectory()` test; the hidden/ignore checks do not depend on
it. -/
def listFiles (R : Regexp) (ignorePatterns : List String) (rel : String) :
    EntryList → List String
  | .nil => []
  | .cons (.file n) rest =>
    if strStartsWith n "." then
      listFiles R ignorePatterns rel rest
    else if shouldIgnore R (childRel rel n) ignorePatterns then
      listFiles R ignorePatterns rel rest
    else
      childRel rel n :: listFiles R ignorePatterns rel rest
  | .cons (.dir n children) rest =>
    if strStartsWith n "." then
      listFiles R ignorePatterns rel rest
    else if shouldIgnore R (childRel rel n) ignorePatterns then
      listFiles R ignorePatterns rel rest
    else
      listFiles R ignorePatterns (childRel rel n) children ++
        listFiles R ignorePatterns rel rest

/-- Model of `'  '.repeat(depth)`: `depth` repetitions of two literal spaces. -/
def indentOf : Nat → String
  | 0 => ""
  | d + 1 => "  " ++ indentOf d

/-- One rendered tree line: `${'  '.repeat(depth)}- ${file}\n`. -/
def treeLine (depth : Nat) (name : String) : String :=
  indentOf depth ++ "- " ++ name ++ "\n"

/-- Translation of `generateTree` (sourcedump.ts lines 65-84) on the tree
model.  Same filtering as `listFiles`; every surviving entry contributes one
line (`treeLine depth name`), and a surviving directory is immediately
followed by its rendering at `depth + 1`. -/
def generateTree (R : Regexp) (ignorePatterns : List String) (depth : Nat) (rel : String) :
    EntryList → String
  | .nil => ""
  | .cons (.file n) rest =>
    if strStartsWith n "." then
      generateTree R ignorePatterns depth rel rest
    else if shouldIgnore R (childRel rel n) ignorePatterns then
      generateTree R ignorePatterns depth rel rest
    else
      treeLine depth n ++ generateTree R ignorePatterns depth rel rest
  | .cons (.dir n children) rest =>
    if strStartsWith n "." then
      generateTree R ignorePatterns depth rel rest
    else if shouldIgnore R (childRel rel n) ignorePatterns then
      generateTree R ignorePatterns depth rel rest
    else
      treeLine depth n ++
        generateTree R ignorePatterns (depth + 1) (childRel rel n) children ++
        generateTree R ignorePatterns depth rel rest

/-! Section: Basic lemmas about the string primitives. -/

theorem isPrefixOf_eq_true_iff (p s : List Char) :
    p.isPrefixOf s = true ↔ ∃ t, s = p ++ t := by
  induction p generalizing s with
  | nil => simp [List.isPrefixOf]
  | cons a as ih =>
    cases s with
    | nil => simp [List.isPrefixOf]
    | cons b bs =>
      simp only [List.isPrefixOf, Bool.and_eq_true, beq_iff_eq, ih, List.cons_append,
        List.cons.injEq]
      constructor
      · rintro ⟨rfl, t, rfl⟩
        exact ⟨t, rfl, rfl⟩
      · rintro ⟨t, rfl, rfl⟩
        exact ⟨rfl, t, rfl⟩

theorem strStartsWith_iff (s p : String) :
    strStartsWith s p = true ↔ ∃ t, s.data = p.data ++ t := by
  simpa [strStartsWith] using isPrefixOf_eq_true_iff p.data s.data

/-- Per-pattern characterization of the body of `shouldIgnore`. -/
theorem shouldIgnore_body_iff (R : Regexp) (P p : String) :
    (if P = p ∨ strStartsWith P p then true
     else if R.compiles p then R.test p P else false) = true ↔
      P = p ∨ (∃ t, P.data = p.data ++ t) ∨ (R.compiles p = true ∧ R.test p P = true) := by
  split_ifs with h1 h2
  · simp only [true_iff]
    rcases h1 with h | h
    · exact Or.inl h
    · exact Or.inr (Or.inl ((strStartsWith_iff P p).mp h))
  · push_neg at h1
    simp [h1.1, h2, (strStartsWith_iff P p).not.mp (by simp [h1.2])]
  · push_neg at h1
    simp [h1.1, (strStartsWith_iff P p).not.mp (by simp [h1.2]),
      Bool.not_eq_true _ ▸ (by simpa using h2 : R.compiles p = false)]

/-- Characterization of `shouldIgnore` as an existential over patterns. -/
theorem shouldIgnore_eq_true_iff (R : Regexp) (P : String) (S : List String) :
    shouldIgnore R P S = true ↔
      ∃ p ∈ S, P = p ∨ (∃ t, P.data = p.data ++ t) ∨
        (R.compiles p = true ∧ R.test p P = true) := by
  simp only [shouldIgnore, List.any_eq_true]
  constructor
  · rintro ⟨p, hp, hbody⟩
    exact ⟨p, hp, (shouldIgnore_body_iff R P p).mp hbody⟩
  · rintro ⟨p, hp, h⟩
    exact ⟨p, hp, (shouldIgnore_body_iff R P p).mpr h⟩

/-! Section: C1. -/

/-- C1: `shouldIgnore(P, S)` is true iff some pattern in `S` equals `P`
exactly, or is a literal string prefix of `P`, or compiles as a regular
expression and matches within `P`; a pattern that fails to compile
contributes only the exact/prefix checks (its regex disjunct is
`R.compiles p = true ∧ _`, which is then false) and is never an error. -/
theorem shouldIgnore_matches_iff (R : Regexp) (P : String) (S : List String) :
    shouldIgnore R P S = true ↔
      ∃ p ∈ S, P = p ∨ (∃ t, P.data = p.data ++ t) ∨
        (R.compiles p = true ∧ R.test p P = true) :=
  shouldIgnore_eq_true_iff R P S

/-! Section: C8. -/

/-- C8: the result of `shouldIgnore` is invariant under permutation of the
pattern list. -/
theorem shouldIgnore_perm_invariant (R : Regexp) (P : String) (S S' : List String)
    (h : S.Perm S') : shouldIgnore R P S = shouldIgnore R P S' := by
  unfold shouldIgnore
  induction h with
  | nil => rfl
  | cons x _ ih => simp only [List.any_cons, ih]
  | swap x y l =>
    simp only [List.any_cons]
    ac_rfl
  | trans _ _ ih1 ih2 => exact ih1.trans ih2

/-- Witness for C8 at a concrete permuted pair of pattern lists. -/
theorem shouldIgnore_perm_invariant_witness :
    shouldIgnore substrRegex "src/main.ts" ["lib", "main", "x"] =
      shouldIgnore substrRegex "src/main.ts" ["x", "lib", "main"] :=
  shouldIgnore_perm_invariant substrRegex "src/main.ts" ["lib", "main", "x"]
    ["x", "lib", "main"] (by decide)

/-! Section: C2. -/

/-- C2: an entry whose root-relative path satisfies `shouldIgnore`
contributes nothing to either traversal: the listing and the tree rendering
of a directory containing it equal those of the directory without it, so no
descendant path and no descendant line is ever emitted (the subtree is never
recursed into). -/
theorem ignored_entry_contributes_nothing (R : Regexp) (pats : List String)
    (d : Nat) (rel : String) (e : Entry) (rest : EntryList)
    (h : shouldIgnore R (childRel rel (Entry.name e)) pats = true) :
    listFiles R pats rel (.cons e rest) = listFiles R pats rel rest ∧
      generateTree R pats d rel (.cons e rest) = generateTree R pats d rel rest := by
  cases e with
  | file n =>
    simp only [Entry.name] at h
    constructor <;> simp [listFiles, generateTree, h]
  | dir n children =>
    simp only [Entry.name] at h
    constructor <;> simp [listFiles, generateTree, h]

/-- Witness for C2: an ignored directory `node_modules` with a child file
contributes nothing to listing or tree. -/
theorem ignored_entry_contributes_nothing_witness :
    listFiles noRegex ["node_modules"] ""
        (.cons (.dir "node_modules" (.cons (.file "x.js") .nil)) .nil) =
      listFiles noRegex ["node_modules"] "" .nil ∧
    generateTree noRegex ["node_modules"] 0 ""
        (.cons (.dir "node_modules" (.cons (.file "x.js") .nil)) .nil) =
      generateTree noRegex ["node_modules"] 0 "" .nil :=
  ignored_entry_contributes_nothing noRegex ["node_modules"] 0 ""
    (.dir "node_modules" (.cons (.file "x.js") .nil)) .nil (by decide)

/-! Section: C5. -/

/-- C5: an entry whose base name starts with `.` is skipped entirely by both
traversals—not listed, not rendered, not recursed into—for every pattern set
`pats` (the hidden check precedes and is independent of the ignore check). -/
theorem hidden_entry_skipped (R : Regexp) (pats : List String)
    (d : Nat) (rel : String) (e : Entry) (rest : EntryList)
    (h : strStartsWith (Entry.name e) "." = true) :
    listFiles R pats rel (.cons e rest) = listFiles R pats rel rest ∧
      generateTree R pats d rel (.cons e rest) = generateTree R pats d rel rest := by
  cases e with
  | file n =>
    simp only [Entry.name] at h
    constructor <;> simp [listFiles, generateTree, h]
  | dir n children =>
    simp only [Entry.name] at h
    constructor <;> simp [listFiles, generateTree, h]

/-- Witness for C5: a `.git` directory with contents disappears from both
outputs even with an empty pattern set. -/
theorem hidden_entry_skipped_witness :
    listFiles noRegex [] ""
        (.cons (.dir ".git" (.cons (.file "config") .nil)) .nil) =
      listFiles noRegex [] "" .nil ∧
    generateTree noRegex [] 0 ""
        (.cons (.dir ".git" (.cons (.file "config") .nil)) .nil) =
      generateTree noRegex [] 0 "" .nil :=
  hidden_entry_skipped noRegex [] 0 ""
    (.dir ".git" (.cons (.file "config") .nil)) .nil (by decide)

/-! Section: Ignore-file parsing. -/

/-- Prepend a character to the first piece of a split (the catch-all case of
the line splitter, where the character is not part of a line break). -/
def splitCons (c : Char) (ls : List (List Char)) : List (List Char) :=
  match ls with
  | [] => [[c]]
  | x :: xs => (c :: x) :: xs

/-- JS `content.split(/\r?\n/)` on the character list: scanning left to
right, `\n` and `\r\n` end the current piece; any other character (including
a `\r` not followed by `\n`) stays in the current piece. -/
def splitLines : List Char → List (List Char)
  | [] => [[]]
  | '\n' :: rest => [] :: splitLines rest
  | '\r' :: '\n' :: rest => [] :: splitLines rest
  | c :: rest => splitCons c (splitLines rest)

/-- Rebuilding a string from its character data is the identity. -/
theorem string_mk_data (s : String) : String.mk s.data = s := rfl

/-- Translation of the parsing in `readGitignore` (sourcedump.ts line 23)
applied to the file's content:
`content.split(/\r?\n/).filter(line => line && !line.startsWith('#'))
 .map(line => line.startsWith('/') ? line.substring(1) : line)`. -/
def readGitignore (content : String) : List String :=
  (((splitLines content.data).map fun l => String.mk l).filter fun line =>
      !line.isEmpty && !strStartsWith line "#").map fun line =>
    if strStartsWith line "/" then String.mk (line.data.drop 1) else line

/-- Lines 123-124 of `main` together with the absent-file case of
`readGitignore` (lines 19-26): the pattern list is the parsed ignore file
(empty contribution when the file is absent) with the caller-supplied
exclusion patterns appended unchanged, in order. -/
def buildPatterns (gitignoreContent : Option String) (excludePatterns : List String) :
    List String :=
  (match gitignoreContent with
   | none => []
   | some c => readGitignore c) ++ excludePatterns

/-- Spec-side predicate (C4): a parsed line is retained iff it is nonempty
and does not begin with `#`. -/
def keepLine (line : String) : Bool :=
  !line.isEmpty && !strStartsWith line "#"

/-- Spec-side transformation (C4): strip exactly one leading `/`. -/
def stripSlash (line : String) : String :=
  if strStartsWith line "/" then String.mk (line.data.drop 1) else line

/-- Join pieces with a separator (used to build ignore-file contents with a
chosen line-ending convention). -/
def joinWith (sep : List Char) : List (List Char) → List Char
  | [] => []
  | [l] => l
  | l :: l2 :: ls => l ++ sep ++ joinWith sep (l2 :: ls)

/-- Join lines of text with a separator string. -/
def joinLines (sep : String) (lines : List String) : String :=
  String.mk (joinWith sep.data (lines.map String.data))

/-- Prepend a whole piece to the first piece of a split. -/
def consHead (l : List Char) : List (List Char) → List (List Char)
  | [] => [l]
  | x :: xs => (l ++ x) :: xs

theorem splitLines_cons_other (c : Char) (rest : List Char)
    (h1 : c ≠ '\n') (h2 : c ≠ '\r') :
    splitLines (c :: rest) = splitCons c (splitLines rest) := by
  simp [splitLines, h1, h2]

theorem splitLines_ne_nil (cs : List Char) : splitLines cs ≠ [] := by
  induction cs with
  | nil => simp [splitLines]
  | cons c rest ih =>
    by_cases h1 : c = '\n'
    · subst h1; simp [splitLines]
    · by_cases h2 : c = '\r'
      · subst h2
        cases rest with
        | nil => simp [splitLines, splitCons]
        | cons c2 rest2 =>
          by_cases h3 : c2 = '\n'
          · subst h3; simp [splitLines]
          · rw [show splitLines ('\r' :: c2 :: rest2) =
                splitCons '\r' (splitLines (c2 :: rest2)) by simp [splitLines, h3]]
            cases hsp : splitLines (c2 :: rest2) with
            | nil => exact absurd hsp ih
            | cons x xs => simp [splitCons]
      · rw [splitLines_cons_other c rest h1 h2]
        cases hsp : splitLines rest with
        | nil => exact absurd hsp ih
        | cons x xs => simp [splitCons]

theorem splitCons_consHead (c : Char) (l : List Char) (L : List (List Char)) :
    splitCons c (consHead l L) = consHead (c :: l) L := by
  cases L <;> simp [splitCons, consHead]

theorem splitLines_append (l cs : List Char)
    (h : ∀ c ∈ l, c ≠ '\n' ∧ c ≠ '\r') :
    splitLines (l ++ cs) = consHead l (splitLines cs) := by
  induction l with
  | nil =>
    cases hsp : splitLines cs with
    | nil => exact absurd hsp (splitLines_ne_nil cs)
    | cons x xs => simp [consHead, hsp]
  | cons c l' ih =>
    have hc := h c (by simp)
    have hrest : ∀ c' ∈ l', c' ≠ '\n' ∧ c' ≠ '\r' := fun c' hc' => h c' (by simp [hc'])
    rw [List.cons_append, splitLines_cons_other c (l' ++ cs) hc.1 hc.2, ih hrest,
      splitCons_consHead]

theorem splitLines_joinWith (sep : List Char)
    (hsep : ∀ cs, splitLines (sep ++ cs) = [] :: splitLines cs)
    (ls : List (List Char)) (hne : ls ≠ [])
    (hclean : ∀ l ∈ ls, ∀ c ∈ l, c ≠ '\n' ∧ c ≠ '\r') :
    splitLines (joinWith sep ls) = ls := by
  induction ls with
  | nil => exact absurd rfl hne
  | cons l ls' ih =>
    cases ls' with
    | nil =>
      have h := splitLines_append l [] (hclean l (by simp))
      simpa [joinWith, splitLines, consHead] using h
    | cons l2 ls'' =>
      have hcl : ∀ c ∈ l, c ≠ '\n' ∧ c ≠ '\r' := hclean l (by simp)
      have hrest : ∀ x ∈ l2 :: ls'', ∀ c ∈ x, c ≠ '\n' ∧ c ≠ '\r' :=
        fun x hx => hclean x (by simp [hx])
      have ihr := ih (by simp) hrest
      simp only [joinWith, List.append_assoc]
      rw [splitLines_append l (sep ++ joinWith sep (l2 :: ls'')) hcl, hsep, ihr, consHead]
      simp

theorem splitLines_lf (cs : List Char) :
    splitLines ("\n".data ++ cs) = [] :: splitLines cs := rfl

theorem splitLines_crlf (cs : List Char) :
    splitLines ("\r\n".data ++ cs) = [] :: splitLines cs := rfl

/-- Evaluating `readGitignore` on text joined from clean lines: it retains
exactly the nonempty, non-comment lines, each with one leading `/`
stripped.  Shared by the C4 and C10 theorems. -/
theorem readGitignore_joinLines (sep : String)
    (hsep : ∀ cs, splitLines (sep.data ++ cs) = [] :: splitLines cs)
    (lines : List String) (hne : lines ≠ [])
    (hclean : ∀ l ∈ lines, ∀ c ∈ l.data, c ≠ '\n' ∧ c ≠ '\r') :
    readGitignore (joinLines sep lines) = (lines.filter keepLine).map stripSlash := by
  have hne' : lines.map String.data ≠ [] := by
    cases lines <;> simp_all
  have hclean' : ∀ l ∈ lines.map String.data, ∀ c ∈ l, c ≠ '\n' ∧ c ≠ '\r' := by
    intro l hl
    rcases List.mem_map.mp hl with ⟨s, hs, rfl⟩
    exact hclean s hs
  have hsplit : splitLines (joinLines sep lines).data = lines.map String.data :=
    splitLines_joinWith sep.data hsep (lines.map String.data) hne' hclean'
  have hmk : ((lines.map String.data).map fun l => String.mk l) = lines := by
    rw [List.map_map, show ((fun l => String.mk l) ∘ String.data) = id from funext fun _ => rfl,
      List.map_id]
  rw [readGitignore, hsplit, hmk]
  rfl

/-! Section: C4. -/

/-- C4: building the pattern set splits the ignore-file text on line breaks
(accepting both `\n` and `\r\n` endings), keeps exactly the nonempty lines
not beginning with `#`, strips exactly one leading `/` from lines beginning
with `/`, and appends the caller-supplied exclusion patterns in order with
no transformation; an absent ignore file contributes an empty pattern list. -/
theorem buildPatterns_spec (lines excl : List String)
    (hne : lines ≠ [])
    (hclean : ∀ l ∈ lines, ∀ c ∈ l.data, c ≠ '\n' ∧ c ≠ '\r') :
    buildPatterns (some (joinLines "\n" lines)) excl
        = (lines.filter keepLine).map stripSlash ++ excl ∧
    buildPatterns (some (joinLines "\r\n" lines)) excl
        = (lines.filter keepLine).map stripSlash ++ excl ∧
    buildPatterns none excl = excl := by
  refine ⟨?_, ?_, rfl⟩
  · simp only [buildPatterns,
      readGitignore_joinLines "\n" splitLines_lf lines hne hclean]
  · simp only [buildPatterns,
      readGitignore_joinLines "\r\n" splitLines_crlf lines hne hclean]

/-- Witness for C4 on a concrete ignore file with a slash-anchored line, a
comment, a blank line, and a plain line, under both line endings. -/
theorem buildPatterns_spec_witness :
    buildPatterns (some (joinLines "\n" ["/build", "# note", "", "node_modules"])) ["dist"]
        = ["build", "node_modules", "dist"] ∧
    buildPatterns (some (joinLines "\r\n" ["/build", "# note", "", "node_modules"])) ["dist"]
        = ["build", "node_modules", "dist"] := by
  have h := buildPatterns_spec ["/build", "# note", "", "node_modules"] ["dist"]
    (by decide) (by decide)
  exact ⟨h.1.trans (by decide), h.2.1.trans (by decide)⟩

/-! Section: C10. -/

/-- C10: if the pattern set contains the empty string—which arises whenever
the ignore file has a line consisting of exactly `/`, since that line
survives the nonempty filter and strips to `""`—then `shouldIgnore` accepts
every path (every string has `""` as a prefix), so both traversals produce
empty output on every tree. -/
theorem empty_pattern_excludes_all (R : Regexp) (S : List String) (h : "" ∈ S) :
    (∀ P, shouldIgnore R P S = true) ∧
    (∀ rel es, listFiles R S rel es = []) ∧
    (∀ d rel es, generateTree R S d rel es = "") ∧
    (∀ lines, lines ≠ [] → (∀ l ∈ lines, ∀ c ∈ l.data, c ≠ '\n' ∧ c ≠ '\r') →
      "/" ∈ lines → "" ∈ readGitignore (joinLines "\n" lines)) := by
  have hall : ∀ P, shouldIgnore R P S = true := by
    intro P
    refine List.any_eq_true.mpr ⟨"", h, ?_⟩
    have hsw : strStartsWith P "" = true := (strStartsWith_iff P "").mpr ⟨P.data, rfl⟩
    simp [hsw]
  refine ⟨hall, ?_, ?_, ?_⟩
  · intro rel es
    induction rel, es using listFiles.induct R S <;> simp_all [listFiles]
  · intro d rel es
    induction d, rel, es using generateTree.induct R S <;> simp_all [generateTree]
  · intro lines hne hclean hmem
    rw [readGitignore_joinLines "\n" splitLines_lf lines hne hclean]
    have hkeep : keepLine "/" = true := by decide
    have hstrip : stripSlash "/" = "" := by decide
    exact hstrip ▸ List.mem_map_of_mem stripSlash (List.mem_filter.mpr ⟨hmem, hkeep⟩)

/-- Witness for C10: with pattern set `[""]`, a sample path is ignored and a
sample tree is fully excluded from both outputs; and parsing an ignore file
consisting of the single line `/` yields the empty-string pattern. -/
theorem empty_pattern_excludes_all_witness :
    shouldIgnore noRegex "src/a.txt" [""] = true ∧
    listFiles noRegex [""] ""
        (.cons (.dir "src" (.cons (.file "a.txt") .nil)) .nil) = [] ∧
    generateTree noRegex [""] 0 ""
        (.cons (.dir "src" (.cons (.file "a.txt") .nil)) .nil) = "" ∧
    "" ∈ readGitignore (joinLines "\n" ["/"]) := by
  have h := empty_pattern_excludes_all noRegex [""] (by simp)
  exact ⟨h.1 "src/a.txt", h.2.1 "" _, h.2.2.1 0 "" _,
    h.2.2.2 ["/"] (by decide) (by decide) (by decide)⟩

/-! Section: Structured view of the two outputs (C3, C7). -/

/-- Concatenate a list of strings (spec-side helper for decomposing the
rendered tree into its lines). -/
def concatStrs : List String → String
  | [] => ""
  | s :: rest => s ++ concatStrs rest

/-- Spec-side structured view of the tree rendering (C3, C7): one element per
emitted line, recording the depth, the base name, and whether the entry is a
directory; filtering, order and depth bookkeeping mirror `generateTree`. -/
def treeLines (R : Regexp) (ignorePatterns : List String) (depth : Nat) (rel : String) :
    EntryList → List (Nat × String × Bool)
  | .nil => []
  | .cons (.file n) rest =>
    if strStartsWith n "." then
      treeLines R ignorePatterns depth rel rest
    else if shouldIgnore R (childRel rel n) ignorePatterns then
      treeLines R ignorePatterns depth rel rest
    else
      (depth, n, false) :: treeLines R ignorePatterns depth rel rest
  | .cons (.dir n children) rest =>
    if strStartsWith n "." then
      treeLines R ignorePatterns depth rel rest
    else if shouldIgnore R (childRel rel n) ignorePatterns then
      treeLines R ignorePatterns depth rel rest
    else
      (depth, n, true) :: (treeLines R ignorePatterns (depth + 1) (childRel rel n) children ++
        treeLines R ignorePatterns depth rel rest)

/-- Spec-side instrumented listing (C3): like `listFiles`, but each emitted
file also carries the depth at which the traversal found it and its base
name (depth, base name, relative path). -/
def listFilesAnn (R : Regexp) (ignorePatterns : List String) (depth : Nat) (rel : String) :
    EntryList → List (Nat × String × String)
  | .nil => []
  | .cons (.file n) rest =>
    if strStartsWith n "." then
      listFilesAnn R ignorePatterns depth rel rest
    else if shouldIgnore R (childRel rel n) ignorePatterns then
      listFilesAnn R ignorePatterns depth rel rest
    else
      (depth, n, childRel rel n) :: listFilesAnn R ignorePatterns depth rel rest
  | .cons (.dir n children) rest =>
    if strStartsWith n "." then
      listFilesAnn R ignorePatterns depth rel rest
    else if shouldIgnore R (childRel rel n) ignorePatterns then
      listFilesAnn R ignorePatterns depth rel rest
    else
      listFilesAnn R ignorePatterns (depth + 1) (childRel rel n) children ++
        listFilesAnn R ignorePatterns depth rel rest

theorem concatStrs_append (a b : List String) :
    concatStrs (a ++ b) = concatStrs a ++ concatStrs b := by
  induction a with
  | nil => simp [concatStrs]
  | cons s rest ih => simp [concatStrs, ih, String.append_assoc]

theorem listFiles_eq_ann (R : Regexp) (pats : List String) (d : Nat) (rel : String)
    (es : EntryList) :
    listFiles R pats rel es = (listFilesAnn R pats d rel es).map fun x => x.2.2 := by
  induction d, rel, es using listFilesAnn.induct R pats <;>
    simp_all [listFiles, listFilesAnn]

theorem treeLines_files_eq_ann (R : Regexp) (pats : List String) (d : Nat) (rel : String)
    (es : EntryList) :
    ((treeLines R pats d rel es).filterMap fun x =>
        if x.2.2 then none else some (x.1, x.2.1))
      = (listFilesAnn R pats d rel es).map fun x => (x.1, x.2.1) := by
  induction d, rel, es using treeLines.induct R pats <;>
    simp_all [treeLines, listFilesAnn]

theorem generateTree_eq_lines (R : Regexp) (pats : List String) (d : Nat) (rel : String)
    (es : EntryList) :
    generateTree R pats d rel es =
      concatStrs ((treeLines R pats d rel es).map fun x => treeLine x.1 x.2.1) := by
  induction d, rel, es using treeLines.induct R pats <;>
    simp_all [generateTree, treeLines, concatStrs, concatStrs_append, String.append_assoc]

/-! Section: C3. -/

/-- C3: the flat listing and the tree rendering are consistent: both are
projections of the same instrumented sequence `listFilesAnn` (depth, base
name, relative path of every surviving file, in traversal order).  The
listing is exactly its relative-path column; the file-leaf lines of the tree
(its non-directory lines, in order, with their depths) are exactly its
(depth, base name) columns; and the rendering is the concatenation of the
`treeLines` lines.  So a relative file path appears in the listing iff its
file appears as a leaf line at the corresponding depth in the tree, and
hidden or ignore-matched entries appear in neither. -/
theorem listing_tree_consistent (R : Regexp) (pats : List String) (d : Nat)
    (rel : String) (es : EntryList) :
    listFiles R pats rel es = ((listFilesAnn R pats d rel es).map fun x => x.2.2) ∧
    ((treeLines R pats d rel es).filterMap fun x =>
        if x.2.2 then none else some (x.1, x.2.1))
      = ((listFilesAnn R pats d rel es).map fun x => (x.1, x.2.1)) ∧
    generateTree R pats d rel es =
      concatStrs ((treeLines R pats d rel es).map fun x => treeLine x.1 x.2.1) :=
  ⟨listFiles_eq_ann R pats d rel es, treeLines_files_eq_ann R pats d rel es,
    generateTree_eq_lines R pats d rel es⟩

/-! Section: C7. -/

/-- C7: the tree rendering decomposes into one line per surviving entry, each
line being exactly `depth` repetitions of two literal spaces, then `- `, then
the entry's base name, then `\n` (depths as recorded by `treeLines`, which
increments the depth for children); and a surviving directory's own line is
immediately followed by its children's rendering at depth `d + 1` before the
remaining siblings. -/
theorem generateTree_line_format (R : Regexp) (pats : List String) :
    (∀ d, indentOf d = concatStrs (List.replicate d "  ")) ∧
    (∀ d rel es, generateTree R pats d rel es =
      concatStrs ((treeLines R pats d rel es).map fun x =>
        indentOf x.1 ++ "- " ++ x.2.1 ++ "\n")) ∧
    (∀ d rel n ch rest, strStartsWith n "." = false →
      shouldIgnore R (childRel rel n) pats = false →
      generateTree R pats d rel (.cons (.dir n ch) rest) =
        (indentOf d ++ "- " ++ n ++ "\n") ++
          (generateTree R pats (d + 1) (childRel rel n) ch ++
            generateTree R pats d rel rest)) := by
  refine ⟨?_, ?_, ?_⟩
  · intro d
    induction d with
    | zero => rfl
    | succ d ih => simp [indentOf, concatStrs, ih, List.replicate]
  · intro d rel es
    exact generateTree_eq_lines R pats d rel es
  · intro d rel n ch rest h1 h2
    simp [generateTree, h1, h2, treeLine, String.append_assoc]

/-- Witness for C7 on a concrete two-level tree. -/
theorem generateTree_line_format_witness :
    indentOf 2 = concatStrs (List.replicate 2 "  ") ∧
    generateTree noRegex [] 0 ""
        (.cons (.dir "src" (.cons (.file "a.txt") .nil)) .nil)
      = concatStrs ((treeLines noRegex [] 0 ""
          (.cons (.dir "src" (.cons (.file "a.txt") .nil)) .nil)).map fun x =>
            indentOf x.1 ++ "- " ++ x.2.1 ++ "\n") ∧
    generateTree noRegex [] 0 ""
        (.cons (.dir "src" (.cons (.file "a.txt") .nil)) (.cons (.file "b.md") .nil))
      = (indentOf 0 ++ "- " ++ "src" ++ "\n") ++
          (generateTree noRegex [] 1 "src" (.cons (.file "a.txt") .nil) ++
            generateTree noRegex [] 0 "" (.cons (.file "b.md") .nil)) :=
  ⟨(generateTree_line_format noRegex []).1 2,
    (generateTree_line_format noRegex []).2.1 0 ""
      (.cons (.dir "src" (.cons (.file "a.txt") .nil)) .nil),
    (generateTree_line_format noRegex []).2.2 0 "" "src" (.cons (.file "a.txt") .nil)
      (.cons (.file "b.md") .nil) (by decide) (by decide)⟩

/-! Section: Well-formed trees and uniqueness of listed paths (C6). -/

/-- Spec-side (C6): a legal filesystem entry name—nonempty and without the
path separator (guaranteed by the operating system for real directory
entries). -/
def validName (n : String) : Bool :=
  decide (n ≠ "" ∧ '/' ∉ n.data)

/-- The base names of a directory listing, in order. -/
def entryNames : EntryList → List String
  | .nil => []
  | .cons e rest => Entry.name e :: entryNames rest

mutual
/-- Spec-side (C6): an entry is well formed when its name is legal and, for a
directory, its listing is well formed. -/
def wfEntry : Entry → Bool
  | .file n => validName n
  | .dir n children => validName n && wfList children
/-- Spec-side (C6): a directory listing is well formed when every entry is,
and sibling names are pairwise distinct (guaranteed by the filesystem). -/
def wfList : EntryList → Bool
  | .nil => true
  | .cons e rest =>
    wfEntry e && wfList rest && decide (Entry.name e ∉ entryNames rest)
end

/-- Spec-side membership predicate (C6): `p` is the relative path of some
file that survives the hidden-entry and ignore filters, the filters being
exactly those of `listFiles`. -/
def isSurvivingFilePath (R : Regexp) (pats : List String) (p : String) (rel : String) :
    EntryList → Bool
  | .nil => false
  | .cons (.file n) rest =>
    (!strStartsWith n "." && !shouldIgnore R (childRel rel n) pats &&
        p == childRel rel n)
      || isSurvivingFilePath R pats p rel rest
  | .cons (.dir n children) rest =>
    (!strStartsWith n "." && !shouldIgnore R (childRel rel n) pats &&
        isSurvivingFilePath R pats p (childRel rel n) children)
      || isSurvivingFilePath R pats p rel rest

/-- The characters every path listed under the accumulator `rel` begins
with: nothing at the root, `rel ++ "/"` below it. -/
def relData (rel : String) : List Char :=
  if rel = "" then [] else rel.data ++ ['/']

theorem string_data_inj {a b : String} (h : a.data = b.data) : a = b := by
  cases a; cases b; exact congrArg String.mk h

theorem childRel_data (rel n : String) :
    (childRel rel n).data = relData rel ++ n.data := by
  unfold childRel relData
  split <;> simp [String.data_append]

theorem childRel_ne_empty (rel n : String) (hn : n ≠ "") : childRel rel n ≠ "" := by
  intro h
  apply hn
  have hd := childRel_data rel n
  rw [h] at hd
  have : n.data = [] := by
    rcases List.append_eq_nil.mp hd.symm with ⟨-, h2⟩
    exact h2
  exact string_data_inj this

theorem relData_childRel (rel n : String) (hn : n ≠ "") :
    relData (childRel rel n) = relData rel ++ n.data ++ ['/'] := by
  rw [relData, if_neg (childRel_ne_empty rel n hn), childRel_data]

theorem mem_listFiles_shape (R : Regexp) (pats : List String) (rel : String)
    (es : EntryList) (hwf : wfList es = true) :
    ∀ p ∈ listFiles R pats rel es, ∃ n t, n ∈ entryNames es ∧
      p.data = relData rel ++ n.data ++ t ∧ (t = [] ∨ ∃ t', t = '/' :: t') := by
  induction rel, es using listFiles.induct R pats with
  | case1 rel => intro p hp; simp [listFiles] at hp
  | case2 rel n rest hhid ih =>
    intro p hp
    rw [listFiles, if_pos hhid] at hp
    have hwfr : wfList rest = true := by
      simp [wfList] at hwf; exact hwf.1.2
    rcases ih hwfr p hp with ⟨m, t, hm, hshape, ht⟩
    exact ⟨m, t, by simp [entryNames, hm], hshape, ht⟩
  | case3 rel n rest hhid hign ih =>
    intro p hp
    rw [listFiles, if_neg (by simp [hhid]), if_pos hign] at hp
    have hwfr : wfList rest = true := by
      simp [wfList] at hwf; exact hwf.1.2
    rcases ih hwfr p hp with ⟨m, t, hm, hshape, ht⟩
    exact ⟨m, t, by simp [entryNames, hm], hshape, ht⟩
  | case4 rel n rest hhid hign ih =>
    intro p hp
    rw [listFiles, if_neg (by simp [hhid]), if_neg (by simp [hign])] at hp
    have hwfr : wfList rest = true := by
      simp [wfList] at hwf; exact hwf.1.2
    rcases List.mem_cons.mp hp with rfl | hp'
    · exact ⟨n, [], by simp [entryNames, Entry.name],
        by simp [childRel_data], Or.inl rfl⟩
    · rcases ih hwfr p hp' with ⟨m, t, hm, hshape, ht⟩
      exact ⟨m, t, by simp [entryNames, hm], hshape, ht⟩
  | case5 rel n children rest hhid ih =>
    intro p hp
    rw [listFiles, if_pos hhid] at hp
    have hwfr : wfList rest = true := by
      simp [wfList] at hwf; exact hwf.1.2
    rcases ih hwfr p hp with ⟨m, t, hm, hshape, ht⟩
    exact ⟨m, t, by simp [entryNames, hm], hshape, ht⟩
  | case6 rel n children rest hhid hign ih =>
    intro p hp
    rw [listFiles, if_neg (by simp [hhid]), if_pos hign] at hp
    have hwfr : wfList rest = true := by
      simp [wfList] at hwf; exact hwf.1.2
    rcases ih hwfr p hp with ⟨m, t, hm, hshape, ht⟩
    exact ⟨m, t, by simp [entryNames, hm], hshape, ht⟩
  | case7 rel n children rest hhid hign ihch ihrest =>
    intro p hp
    rw [listFiles, if_neg (by simp [hhid]), if_neg (by simp [hign])] at hp
    have hwfparts : wfEntry (.dir n children) = true ∧ wfList rest = true := by
      simp [wfList] at hwf; exact ⟨hwf.1.1, hwf.1.2⟩
    have hwfch : wfList children = true := by
      have := hwfparts.1; simp [wfEntry] at this; exact this.2
    have hvn : validName n = true := by
      have := hwfparts.1; simp [wfEntry] at this; exact this.1
    have hn : n ≠ "" := by
      simp [validName] at hvn; exact hvn.1
    rcases List.mem_append.mp hp with hp' | hp'
    · rcases ihch hwfch p hp' with ⟨m, t, hm, hshape, ht⟩
      refine ⟨n, '/' :: (m.data ++ t), by simp [entryNames, Entry.name], ?_, Or.inr ⟨_, rfl⟩⟩
      rw [hshape, relData_childRel rel n hn]
      simp
    · rcases ihrest hwfparts.2 p hp' with ⟨m, t, hm, hshape, ht⟩
      exact ⟨m, t, by simp [entryNames, hm], hshape, ht⟩

theorem shape_disjoint (rel n₁ n₂ : String) (t₁ t₂ : List Char)
    (h₁ : '/' ∉ n₁.data) (h₂ : '/' ∉ n₂.data) (hne : n₁ ≠ n₂)
    (ht₁ : t₁ = [] ∨ ∃ t', t₁ = '/' :: t') (ht₂ : t₂ = [] ∨ ∃ t', t₂ = '/' :: t') :
    relData rel ++ n₁.data ++ t₁ ≠ relData rel ++ n₂.data ++ t₂ := by
  intro heq
  rw [List.append_assoc, List.append_assoc] at heq
  have heq' : n₁.data ++ t₁ = n₂.data ++ t₂ := List.append_cancel_left heq
  rcases List.append_eq_append_iff.mp heq' with ⟨a, ha1, ha2⟩ | ⟨a, ha1, ha2⟩
  · cases a with
    | nil => exact hne (string_data_inj (by simpa using ha1.symm))
    | cons c cs =>
      have hc : c = '/' := by
        rcases ht₁ with rfl | ⟨t', ht'⟩
        · exact absurd ha2.symm (by simp)
        · rw [ht'] at ha2
          exact (List.cons.injEq .. ▸ ha2).1.symm
      exact h₂ (ha1 ▸ List.mem_append_right n₁.data (by simp [hc]))
  · cases a with
    | nil => exact hne (string_data_inj (by simpa using ha1))
    | cons c cs =>
      have hc : c = '/' := by
        rcases ht₂ with rfl | ⟨t', ht'⟩
        · exact absurd ha2.symm (by simp)
        · rw [ht'] at ha2
          exact (List.cons.injEq .. ▸ ha2).1.symm
      exact h₁ (ha1 ▸ List.mem_append_right n₂.data (by simp [hc]))

theorem mem_listFiles_children_shape (R : Regexp) (pats : List String)
    (rel n : String) (children : EntryList) (hwf : wfList children = true)
    (hn : n ≠ "") :
    ∀ p ∈ listFiles R pats (childRel rel n) children,
      ∃ t', p.data = relData rel ++ n.data ++ ('/' :: t') := by
  intro p hp
  rcases mem_listFiles_shape R pats (childRel rel n) children hwf p hp with
    ⟨m, t, _, hshape, _⟩
  refine ⟨m.data ++ t, ?_⟩
  rw [hshape, relData_childRel rel n hn]
  simp

theorem wfList_names_valid (es : EntryList) :
    wfList es = true → ∀ m ∈ entryNames es, validName m = true := by
  induction es using entryNames.induct with
  | case1 => intro _ m hm; simp [entryNames] at hm
  | case2 e rest ih =>
    intro hwf m hm
    simp only [wfList, Bool.and_eq_true, decide_eq_true_eq] at hwf
    obtain ⟨⟨hwe, hwr⟩, -⟩ := hwf
    rw [entryNames] at hm
    rcases List.mem_cons.mp hm with rfl | hm'
    · cases e <;> simp only [wfEntry, Bool.and_eq_true] at hwe <;>
        simp [Entry.name] at * <;> tauto
    · exact ih hwr m hm'

theorem validName_parts (n : String) (h : validName n = true) :
    n ≠ "" ∧ '/' ∉ n.data := by
  simpa [validName] using h

theorem listFiles_nodup_of_wf (R : Regexp) (pats : List String) (rel : String)
    (es : EntryList) : wfList es = true → (listFiles R pats rel es).Nodup := by
  induction rel, es using listFiles.induct R pats with
  | case1 rel => intro _; simp [listFiles]
  | case2 rel n rest hhid ih =>
    intro hwf
    rw [listFiles, if_pos hhid]
    simp only [wfList, Bool.and_eq_true] at hwf
    exact ih hwf.1.2
  | case3 rel n rest hhid hign ih =>
    intro hwf
    rw [listFiles, if_neg (by simp [hhid]), if_pos hign]
    simp only [wfList, Bool.and_eq_true] at hwf
    exact ih hwf.1.2
  | case4 rel n rest hhid hign ih =>
    intro hwf
    rw [listFiles, if_neg (by simp [hhid]), if_neg (by simp [hign])]
    simp only [wfList, Bool.and_eq_true, decide_eq_true_eq] at hwf
    obtain ⟨⟨hwe, hwr⟩, hnm⟩ := hwf
    simp only [wfEntry] at hwe
    obtain ⟨hn1, hn2⟩ := validName_parts n hwe
    refine List.nodup_cons.mpr ⟨?_, ih hwr⟩
    intro hmem
    rcases mem_listFiles_shape R pats rel rest hwr _ hmem with ⟨m, t, hm, hshape, ht⟩
    obtain ⟨-, hm2⟩ := validName_parts m (wfList_names_valid rest hwr m hm)
    have hnem : n ≠ m := by
      intro h
      apply hnm
      simp only [Entry.name]
      exact h ▸ hm
    exact shape_disjoint rel n m [] t hn2 hm2 hnem (Or.inl rfl) ht
      (by rw [← childRel_data, hshape]; simp)
  | case5 rel n children rest hhid ih =>
    intro hwf
    rw [listFiles, if_pos hhid]
    simp only [wfList, Bool.and_eq_true] at hwf
    exact ih hwf.1.2
  | case6 rel n children rest hhid hign ih =>
    intro hwf
    rw [listFiles, if_neg (by simp [hhid]), if_pos hign]
    simp only [wfList, Bool.and_eq_true] at hwf
    exact ih hwf.1.2
  | case7 rel n children rest hhid hign ihch ihrest =>
    intro hwf
    rw [listFiles, if_neg (by simp [hhid]), if_neg (by simp [hign])]
    simp only [wfList, wfEntry, Bool.and_eq_true, decide_eq_true_eq] at hwf
    obtain ⟨⟨⟨hvn, hwch⟩, hwr⟩, hnm⟩ := hwf
    obtain ⟨hn1, hn2⟩ := validName_parts n hvn
    refine List.nodup_append.mpr ⟨ihch hwch, ihrest hwr, ?_⟩
    intro p hpl hpr
    rcases mem_listFiles_children_shape R pats rel n children hwch hn1 p hpl with
      ⟨t', hshape1⟩
    rcases mem_listFiles_shape R pats rel rest hwr p hpr with ⟨m, t, hm, hshape2, ht⟩
    obtain ⟨-, hm2⟩ := validName_parts m (wfList_names_valid rest hwr m hm)
    have hnem : n ≠ m := by
      intro h
      apply hnm
      simp only [Entry.name]
      exact h ▸ hm
    exact shape_disjoint rel n m ('/' :: t') t hn2 hm2 hnem (Or.inr ⟨t', rfl⟩) ht
      (by rw [← hshape1, ← hshape2])

theorem listFiles_mem_iff (R : Regexp) (pats : List String) (p rel : String)
    (es : EntryList) :
    p ∈ listFiles R pats rel es ↔ isSurvivingFilePath R pats p rel es = true := by
  induction rel, es using listFiles.induct R pats <;>
    simp_all [listFiles, isSurvivingFilePath]

/-! Section: C6. -/

/-- C6: on a well-formed tree (legal entry names, distinct siblings—as the
filesystem guarantees), `listFiles` returns exactly the relative paths of
the surviving (non-hidden, non-ignored) files—membership in the result
coincides with `isSurvivingFilePath`—and no path occurs twice.  The
depth-first order (a surviving directory contributes its recursive listing,
a surviving file its relative path, in directory-read order) is the defining
equation of `listFiles` itself. -/
theorem listFiles_exact_and_unique (R : Regexp) (pats : List String) (rel : String)
    (es : EntryList) (hwf : wfList es = true) :
    (∀ p, p ∈ listFiles R pats rel es ↔ isSurvivingFilePath R pats p rel es = true) ∧
    (listFiles R pats rel es).Nodup :=
  ⟨fun p => listFiles_mem_iff R pats p rel es,
    listFiles_nodup_of_wf R pats rel es hwf⟩

/-- Witness for C6 on a concrete well-formed tree. -/
theorem listFiles_exact_and_unique_witness :
    ("src/a.txt" ∈ listFiles noRegex ["node_modules"] ""
        (.cons (.dir "src" (.cons (.file "a.txt") .nil))
          (.cons (.dir "node_modules" (.cons (.file "x.js") .nil)) .nil)) ↔
      isSurvivingFilePath noRegex ["node_modules"] "src/a.txt" ""
        (.cons (.dir "src" (.cons (.file "a.txt") .nil))
          (.cons (.dir "node_modules" (.cons (.file "x.js") .nil)) .nil)) = true) ∧
    (listFiles noRegex ["node_modules"] ""
        (.cons (.dir "src" (.cons (.file "a.txt") .nil))
          (.cons (.dir "node_modules" (.cons (.file "x.js") .nil)) .nil))).Nodup := by
  have h := listFiles_exact_and_unique noRegex ["node_modules"] ""
    (.cons (.dir "src" (.cons (.file "a.txt") .nil))
      (.cons (.dir "node_modules" (.cons (.file "x.js") .nil)) .nil)) (by decide)
  exact ⟨h.1 "src/a.txt", h.2⟩

/-! Section: Failure-aware traversal model (C9). -/

mutual
/-- A node of the failure-aware filesystem: `stat`ing the entry either fails
with an error, or reveals a file, or a directory whose `readdir` outcome is
`contents`. -/
inductive NodeR where
  | statFail (name : String) (e : String)
  | file (name : String)
  | dir (name : String) (contents : DirR)
/-- The outcome of `readdir` on a directory: its listing, or a failure. -/
inductive DirR where
  | ok (entries : NodeListR)
  | readFail (e : String)
/-- A directory listing in the failure-aware model. -/
inductive NodeListR where
  | nil
  | cons (node : NodeR) (rest : NodeListR)
end

/-- Base name of a node (the `file` loop variable). -/
def NodeR.name : NodeR → String
  | .statFail n _ => n
  | .file n => n
  | .dir n _ => n

mutual
/-- Translation of `listFiles` over the failure-aware filesystem, in the `Except` monad:
`await readdir(dir)` rethrows a read failure; per entry, the hidden and
ignore checks run before `await stat(filePath)`, whose failure rethrows; a
rethrown error aborts the whole call with no partial result (the source has
no `try`/`catch` around these awaits). -/
def listFilesD (R : Regexp) (ignorePatterns : List String) (rel : String) :
    DirR → Except String (List String)
  | .readFail e => .error e
  | .ok entries => listFilesN R ignorePatterns rel entries

/-- The loop of `listFilesD` over a directory listing. -/
def listFilesN (R : Regexp) (ignorePatterns : List String) (rel : String) :
    NodeListR → Except String (List String)
  | .nil => .ok []
  | .cons (.statFail n e) rest =>
    if strStartsWith n "." then
      listFilesN R ignorePatterns rel rest
    else if shouldIgnore R (childRel rel n) ignorePatterns then
      listFilesN R ignorePatterns rel rest
    else
      .error e
  | .cons (.file n) rest =>
    if strStartsWith n "." then
      listFilesN R ignorePatterns rel rest
    else if shouldIgnore R (childRel rel n) ignorePatterns then
      listFilesN R ignorePatterns rel rest
    else
      match listFilesN R ignorePatterns rel rest with
      | .error e => .error e
      | .ok tail => .ok (childRel rel n :: tail)
  | .cons (.dir n contents) rest =>
    if strStartsWith n "." then
      listFilesN R ignorePatterns rel rest
    else if shouldIgnore R (childRel rel n) ignorePatterns then
      listFilesN R ignorePatterns rel rest
    else
      match listFilesD R ignorePatterns (childRel rel n) contents with
      | .error e => .error e
      | .ok sub =>
        match listFilesN R ignorePatterns rel rest with
        | .error e => .error e
        | .ok tail => .ok (sub ++ tail)
end

mutual
/-- Translation of `generateTree` over the failure-aware filesystem, in the `Except`
monad (same failure behaviour as `listFilesD`). -/
def generateTreeD (R : Regexp) (ignorePatterns : List String) (depth : Nat) (rel : String) :
    DirR → Except String String
  | .readFail e => .error e
  | .ok entries => generateTreeN R ignorePatterns depth rel entries

/-- The loop of `generateTreeD` over a directory listing. -/
def generateTreeN (R : Regexp) (ignorePatterns : List String) (depth : Nat) (rel : String) :
    NodeListR → Except String String
  | .nil => .ok ""
  | .cons (.statFail n e) rest =>
    if strStartsWith n "." then
      generateTreeN R ignorePatterns depth rel rest
    else if shouldIgnore R (childRel rel n) ignorePatterns then
      generateTreeN R ignorePatterns depth rel rest
    else
      .error e
  | .cons (.file n) rest =>
    if strStartsWith n "." then
      generateTreeN R ignorePatterns depth rel rest
    else if shouldIgnore R (childRel rel n) ignorePatterns then
      generateTreeN R ignorePatterns depth rel rest
    else
      match generateTreeN R ignorePatterns depth rel rest with
      | .error e => .error e
      | .ok tail => .ok (treeLine depth n ++ tail)
  | .cons (.dir n contents) rest =>
    if strStartsWith n "." then
      generateTreeN R ignorePatterns depth rel rest
    else if shouldIgnore R (childRel rel n) ignorePatterns then
      generateTreeN R ignorePatterns depth rel rest
    else
      match generateTreeD R ignorePatterns (depth + 1) (childRel rel n) contents with
      | .error e => .error e
      | .ok sub =>
        match generateTreeN R ignorePatterns depth rel rest with
        | .error e => .error e
        | .ok tail => .ok (treeLine depth n ++ sub ++ tail)
end

mutual
/-- Spec-side (C9): the first filesystem error the filtered traversal
encounters (traversal order and filtering exactly as in the source), if
any. -/
def firstErrD (R : Regexp) (ignorePatterns : List String) (rel : String) :
    DirR → Option String
  | .readFail e => some e
  | .ok entries => firstErrN R ignorePatterns rel entries

/-- The loop of `firstErrD` over a directory listing. -/
def firstErrN (R : Regexp) (ignorePatterns : List String) (rel : String) :
    NodeListR → Option String
  | .nil => none
  | .cons (.statFail n e) rest =>
    if strStartsWith n "." then
      firstErrN R ignorePatterns rel rest
    else if shouldIgnore R (childRel rel n) ignorePatterns then
      firstErrN R ignorePatterns rel rest
    else
      some e
  | .cons (.file _) rest => firstErrN R ignorePatterns rel rest
  | .cons (.dir n contents) rest =>
    if strStartsWith n "." then
      firstErrN R ignorePatterns rel rest
    else if shouldIgnore R (childRel rel n) ignorePatterns then
      firstErrN R ignorePatterns rel rest
    else
      match firstErrD R ignorePatterns (childRel rel n) contents with
      | some e => some e
      | none => firstErrN R ignorePatterns rel rest
end

mutual
theorem listFilesD_error_iff (R : Regexp) (pats : List String) (rel : String)
    (d : DirR) (e : String) :
    listFilesD R pats rel d = .error e ↔ firstErrD R pats rel d = some e := by
  cases d with
  | readFail e' => simp [listFilesD, firstErrD]
  | ok entries =>
    simpa [listFilesD, firstErrD] using listFilesN_error_iff R pats rel entries e

theorem listFilesN_error_iff (R : Regexp) (pats : List String) (rel : String)
    (ns : NodeListR) (e : String) :
    listFilesN R pats rel ns = .error e ↔ firstErrN R pats rel ns = some e := by
  cases ns with
  | nil => simp [listFilesN, firstErrN]
  | cons node rest =>
    cases node with
    | statFail n e' =>
      simp only [listFilesN, firstErrN]
      split_ifs with h1 h2
      · exact listFilesN_error_iff R pats rel rest e
      · exact listFilesN_error_iff R pats rel rest e
      · simp
    | file n =>
      simp only [listFilesN, firstErrN]
      split_ifs with h1 h2
      · exact listFilesN_error_iff R pats rel rest e
      · exact listFilesN_error_iff R pats rel rest e
      · cases hres : listFilesN R pats rel rest with
        | error e2 =>
          have h := (listFilesN_error_iff R pats rel rest e2).mp hres
          rw [h]
          simp
        | ok tail =>
          constructor
          · intro hcontra
            simp at hcontra
          · intro hfe
            have h := (listFilesN_error_iff R pats rel rest e).mpr hfe
            rw [hres] at h
            exact absurd h (by simp)
    | dir n contents =>
      simp only [listFilesN, firstErrN]
      split_ifs with h1 h2
      · exact listFilesN_error_iff R pats rel rest e
      · exact listFilesN_error_iff R pats rel rest e
      · cases hsub : listFilesD R pats (childRel rel n) contents with
        | error e2 =>
          have h := (listFilesD_error_iff R pats (childRel rel n) contents e2).mp hsub
          rw [h]
          simp
        | ok sub =>
          have hnone : firstErrD R pats (childRel rel n) contents = none := by
            cases hfd : firstErrD R pats (childRel rel n) contents with
            | none => rfl
            | some e2 =>
              have h := (listFilesD_error_iff R pats (childRel rel n) contents e2).mpr hfd
              rw [hsub] at h
              exact absurd h (by simp)
          rw [hnone]
          cases hres : listFilesN R pats rel rest with
          | error e2 =>
            have h := (listFilesN_error_iff R pats rel rest e2).mp hres
            rw [h]
            simp
          | ok tail =>
            constructor
            · intro hcontra
              simp at hcontra
            · intro hfe
              have h := (listFilesN_error_iff R pats rel rest e).mpr hfe
              rw [hres] at h
              exact absurd h (by simp)
end

mutual
theorem generateTreeD_error_iff (R : Regexp) (pats : List String) (depth : Nat)
    (rel : String) (d : DirR) (e : String) :
    generateTreeD R pats depth rel d = .error e ↔ firstErrD R pats rel d = some e := by
  cases d with
  | readFail e' => simp [generateTreeD, firstErrD]
  | ok entries =>
    simpa [generateTreeD, firstErrD] using
      generateTreeN_error_iff R pats depth rel entries e

theorem generateTreeN_error_iff (R : Regexp) (pats : List String) (depth : Nat)
    (rel : String) (ns : NodeListR) (e : String) :
    generateTreeN R pats depth rel ns = .error e ↔ firstErrN R pats rel ns = some e := by
  cases ns with
  | nil => simp [generateTreeN, firstErrN]
  | cons node rest =>
    cases node with
    | statFail n e' =>
      simp only [generateTreeN, firstErrN]
      split_ifs with h1 h2
      · exact generateTreeN_error_iff R pats depth rel rest e
      · exact generateTreeN_error_iff R pats depth rel rest e
      · simp
    | file n =>
      simp only [generateTreeN, firstErrN]
      split_ifs with h1 h2
      · exact generateTreeN_error_iff R pats depth rel rest e
      · exact generateTreeN_error_iff R pats depth rel rest e
      · cases hres : generateTreeN R pats depth rel rest with
        | error e2 =>
          have h := (generateTreeN_error_iff R pats depth rel rest e2).mp hres
          rw [h]
          simp
        | ok tail =>
          constructor
          · intro hcontra
            simp at hcontra
          · intro hfe
            have h := (generateTreeN_error_iff R pats depth rel rest e).mpr hfe
            rw [hres] at h
            exact absurd h (by simp)
    | dir n contents =>
      simp only [generateTreeN, firstErrN]
      split_ifs with h1 h2
      · exact generateTreeN_error_iff R pats depth rel rest e
      · exact generateTreeN_error_iff R pats depth rel rest e
      · cases hsub : generateTreeD R pats (depth + 1) (childRel rel n) contents with
        | error e2 =>
          have h :=
            (generateTreeD_error_iff R pats (depth + 1) (childRel rel n) contents e2).mp hsub
          rw [h]
          simp
        | ok sub =>
          have hnone : firstErrD R pats (childRel rel n) contents = none := by
            cases hfd : firstErrD R pats (childRel rel n) contents with
            | none => rfl
            | some e2 =>
              have h :=
                (generateTreeD_error_iff R pats (depth + 1) (childRel rel n) contents e2).mpr hfd
              rw [hsub] at h
              exact absurd h (by simp)
          rw [hnone]
          cases hres : generateTreeN R pats depth rel rest with
          | error e2 =>
            have h := (generateTreeN_error_iff R pats depth rel rest e2).mp hres
            rw [h]
            simp
          | ok tail =>
            constructor
            · intro hcontra
              simp at hcontra
            · intro hfe
              have h := (generateTreeN_error_iff R pats depth rel rest e).mpr hfe
              rw [hres] at h
              exact absurd h (by simp)
end

/-! Section: C9. -/

/-- C9: a traversal returns `.error e` exactly when the first filesystem
operation it performs that fails (a directory read or an entry `stat`, in
traversal order, filters applied) fails with `e`: the error reaches the
caller unmodified, the whole traversal aborts (an `Except.error` carries no
partial listing or rendering), there is no per-entry recovery or retry, and
`listFiles` and `generateTree` abort on the same first error. -/
theorem traversal_errors_propagate (R : Regexp) (pats : List String) :
    (∀ rel d e, listFilesD R pats rel d = .error e ↔ firstErrD R pats rel d = some e) ∧
    (∀ depth rel d e,
      generateTreeD R pats depth rel d = .error e ↔ firstErrD R pats rel d = some e) :=
  ⟨fun rel d e => listFilesD_error_iff R pats rel d e,
    fun depth rel d e => generateTreeD_error_iff R pats depth rel d e⟩
